import Mathlib

/-!
Verification of the MongoDB event-store adapter (`eventsourcing/mongodb.py`).

The adapter stores one document per `StoredEvent` in a MongoDB collection with
a unique index on `(originator_id, originator_version)`.  We model the
collection as a `List StoredEvent` in insertion order (Mongo natural order),
`insert_one` as an insert-if-absent on that key, `count` as the list length,
and cursors (`find`, `sort`, `skip`, `limit`) as the corresponding list
operations.  Machine integers are modelled as `Int`/`Nat`; Python exceptions
are modelled with `Except` where the code can raise, and Python truthiness
(`if gt:`) is modelled explicitly, since the source uses it on values that can
legitimately be `0`.
-/

/-- Mirror of `eventsourcing.persistence.StoredEvent`: one event of one
stream.  The opaque UUID `originator_id` is modelled as a `Nat`, the payload
`state` as a `String`. -/
structure StoredEvent where
  originator_id : Nat
  originator_version : Int
  topic : String
  state : String
deriving DecidableEq, Repr

/-- Mirror of `eventsourcing.persistence.Notification`: a stored event exposed
with a global notification id. -/
structure Notification where
  id : Nat
  originator_id : Nat
  originator_version : Int
  topic : String
  state : String
deriving DecidableEq, Repr

/-- Python exceptions that the modelled code paths can raise. -/
inductive PyError where
  | attributeError
  | valueError
deriving DecidableEq, Repr

/-- The unique index of the collection is on
`(originator_id, originator_version)`: two documents collide exactly when both
fields agree. -/
def sameKey (a b : StoredEvent) : Bool :=
  a.originator_id == b.originator_id && a.originator_version == b.originator_version

/-- A document with the key of `e` is already present in the collection, so
`collection.insert_one(asdict(e))` would raise `DuplicateKeyError`. -/
def hasKey (coll : List StoredEvent) (e : StoredEvent) : Bool :=
  coll.any (sameKey e)

/-- The `except DuplicateKeyError` branch of `insert_events` builds
`event_dict = asdict(event)`, does `event_dict["originator_version"] += 1` and
re-wraps it as a `StoredEvent`. -/
def bumpVersion (e : StoredEvent) : StoredEvent :=
  { e with originator_version := e.originator_version + 1 }

/-- Largest `originator_version` appearing in the collection (0 for the empty
collection); used only for the termination measure of the insert loop. -/
def maxVersion (coll : List StoredEvent) : Int :=
  (coll.map (fun d => d.originator_version)).foldr max 0

/-- Termination measure helper: how far an event's version is below the top of
the collection.  A conflicting event is renumbered upwards, so its slack
strictly shrinks. -/
def slack (coll : List StoredEvent) (e : StoredEvent) : Nat :=
  (1 + maxVersion coll - e.originator_version).toNat

/-- Total slack of the not-yet-processed tail of the caller's list. -/
def pendingWeight (coll : List StoredEvent) (pending : List StoredEvent) : Nat :=
  (pending.map (slack coll)).sum

theorem version_le_maxVersion {coll : List StoredEvent} {d : StoredEvent}
    (hd : d ∈ coll) : d.originator_version ≤ maxVersion coll := by
  induction coll with
  | nil => cases hd
  | cons x xs ih =>
    rcases List.mem_cons.mp hd with h | h
    · subst h; exact le_max_left _ _
    · exact le_trans (ih h) (le_max_right _ _)

theorem hasKey_version_le {coll : List StoredEvent} {e : StoredEvent}
    (h : hasKey coll e = true) : e.originator_version ≤ maxVersion coll := by
  rcases List.any_eq_true.mp h with ⟨d, hd, hk⟩
  have hv : e.originator_version = d.originator_version := by
    simp only [sameKey, Bool.and_eq_true, beq_iff_eq] at hk
    exact hk.2
  rw [hv]
  exact version_le_maxVersion hd

theorem slack_bump_lt {coll : List StoredEvent} {e : StoredEvent}
    (h : hasKey coll e = true) : slack coll (bumpVersion e) < slack coll e := by
  have hv := hasKey_version_le h
  simp only [slack, bumpVersion]
  omega

theorem pendingWeight_conflict {coll : List StoredEvent} {e : StoredEvent}
    (rest : List StoredEvent) (h : hasKey coll e = true) :
    pendingWeight coll (rest ++ [bumpVersion e]) < pendingWeight coll (e :: rest) := by
  have := @slack_bump_lt coll e h
  simp only [pendingWeight, List.map_append, List.sum_append, List.map_cons,
    List.sum_cons, List.map_nil, List.sum_nil]
  omega

/-- Final state of one `insert_events` call: the collection, the caller's
`stored_events` list (which the code mutates), and the returned
`notification_ids`. -/
structure InsertResult where
  collection : List StoredEvent
  events : List StoredEvent
  ids : List Nat
deriving DecidableEq, Repr

/-- Shallow embedding of the loop body of
`MongoDBAggregateRecorder.insert_events`:

    for event in stored_events:
        try:
            self.collection.insert_one(asdict(event))
        except DuplicateKeyError:
            event_dict = asdict(event)
            event_dict["originator_version"] += 1
            stored_events.append(StoredEvent(**event_dict))
        notification_ids.append(self.collection.count())

The Python `for` iterates by index over a list that the loop itself appends
to, so the appended renumbered copies are processed too; `pending` is the part
of `stored_events` not yet visited, and an append on conflict lands at its
end.  On a successful insert the recorded id is `count()` after the insert
(old count + 1); on a conflict no document is inserted and the unchanged
`count()` is recorded.  The loop terminates because each conflict strictly
raises the conflicting copy's version towards the collection's maximum. -/
def insertLoop (coll : List StoredEvent) (pending : List StoredEvent) : InsertResult :=
  match pending with
  | [] => ⟨coll, [], []⟩
  | e :: rest =>
    if h : hasKey coll e = true then
      let r := insertLoop coll (rest ++ [bumpVersion e])
      ⟨r.collection, e :: r.events, coll.length :: r.ids⟩
    else
      let r := insertLoop (coll ++ [e]) rest
      ⟨r.collection, e :: r.events, (coll.length + 1) :: r.ids⟩
termination_by (pending.length, pendingWeight coll pending)
decreasing_by
  · simp only [List.length_append, List.length_cons, List.length_nil]
    exact Prod.Lex.right _ (pendingWeight_conflict rest h)
  · exact Prod.Lex.left _ _ (by simp)

/-- `MongoDBAggregateRecorder.insert_events`: note that the code catches
`DuplicateKeyError` and renumbers instead of raising, so the call always
returns a list of notification ids. -/
def insert_events (coll : List StoredEvent) (stored_events : List StoredEvent) :
    InsertResult :=
  insertLoop coll stored_events

/-- `MongoDBApplicationRecorder.max_notification_id`:
`return self.collection.count()`. -/
def max_notification_id (coll : List StoredEvent) : Nat :=
  coll.length

/-- Python truthiness of an `Optional[int]` value: `None` and `0` are falsy.
The source tests `if gt:`, `if lte:` and `if limit:`, not `... is not None`. -/
def truthy : Option Int → Bool
  | none => false
  | some n => n != 0

/-- Python truthiness for the `Optional[int]` limit, modelled as a `Nat`. -/
def truthyNat : Option Nat → Bool
  | none => false
  | some n => n != 0

/-- Net version constraints placed on the Mongo query by `apply_params`. -/
structure VersionQuery where
  gtBound : Option Int
  lteBound : Option Int
deriving DecidableEq, Repr

/-- Shallow embedding of `MongoDBAggregateRecorder.apply_params`: `if gt:`
adds a `$gt` condition; `if lte and "originator_version" in query:` replaces
it with an `$and` of both conditions; `elif lte:` adds `$lte` alone.  Because
of Python truthiness, `gt=0` and `lte=0` (like `None`) add no condition. -/
def apply_params (gt lte : Option Int) : VersionQuery :=
  if truthy gt then
    if truthy lte then ⟨gt, lte⟩
    else ⟨gt, none⟩
  else if truthy lte then ⟨none, lte⟩
  else ⟨none, none⟩

/-- A document matches the version constraints of the query. -/
def matchesVersion (q : VersionQuery) (e : StoredEvent) : Bool :=
  (match q.gtBound with
    | some g => decide (g < e.originator_version)
    | none => true) &&
  (match q.lteBound with
    | some l => decide (e.originator_version ≤ l)
    | none => true)

/-- Comparator for `cursor.sort([("originator_version", ASCENDING)])`. -/
def versionLe (a b : StoredEvent) : Bool :=
  decide (a.originator_version ≤ b.originator_version)

/-- Comparator for `cursor.sort([("originator_version", DESCENDING)])`. -/
def versionGe (a b : StoredEvent) : Bool :=
  decide (b.originator_version ≤ a.originator_version)

/-- Insert one document into a list sorted by the comparator (model of the
cursor sort; stability is irrelevant here because the unique index makes
versions within one stream distinct). -/
def insertSorted (le : StoredEvent → StoredEvent → Bool) (e : StoredEvent) :
    List StoredEvent → List StoredEvent
  | [] => [e]
  | x :: xs => if le e x then e :: x :: xs else x :: insertSorted le e xs

/-- Sort a list of documents by the comparator. -/
def sortEvents (le : StoredEvent → StoredEvent → Bool) :
    List StoredEvent → List StoredEvent
  | [] => []
  | x :: xs => insertSorted le x (sortEvents le xs)

/-- Shallow embedding of `MongoDBAggregateRecorder.select_events`: filter the
collection by `originator_id` and the `apply_params` version constraints, sort
by version ascending or descending, and apply `cursor.limit` — which, both by
Python truthiness (`if limit:`) and by Mongo semantics of `limit(0)`, performs
no truncation for `limit=None` and `limit=0`. -/
def select_events (coll : List StoredEvent) (originator_id : Nat)
    (gt lte : Option Int) (desc : Bool) (limit : Option Nat) :
    List StoredEvent :=
  let q := apply_params gt lte
  let found := coll.filter
    (fun e => e.originator_id == originator_id && matchesVersion q e)
  let sorted := if desc then sortEvents versionGe found else sortEvents versionLe found
  if truthyNat limit then sorted.take (limit.getD 0) else sorted

/-- Mongo cursor `.limit(n)` on a scan: `n = 0` means no limit. -/
def mongoLimit (n : Nat) (xs : List StoredEvent) : List StoredEvent :=
  if n == 0 then xs else xs.take n

/-- The `break` test of `select_notifications`:
`if stop is not None and notification_id > stop - 1: break`. -/
def stopHit (stop : Option Int) (notification_id : Nat) : Bool :=
  match stop with
  | some s => decide ((notification_id : Int) > s - 1)
  | none => false

/-- Build the `Notification` returned for one scanned document; the id is the
running `enumerate` counter, not anything stored in the document. -/
def mkNotification (notification_id : Nat) (d : StoredEvent) : Notification :=
  ⟨notification_id, d.originator_id, d.originator_version, d.topic, d.state⟩

/-- The `for notification_id, obj in enumerate(cursor, start):` loop of
`select_notifications`: `break` once the counter passes `stop - 1`, `continue`
past documents whose topic is filtered out (the counter still advances), and
otherwise emit a `Notification` carrying the counter as its id. -/
def notifLoop (stop : Option Int) (topics : List String) :
    Nat → List StoredEvent → List Notification
  | _, [] => []
  | i, d :: rest =>
    if stopHit stop i then []
    else if !topics.isEmpty && !topics.contains d.topic then
      notifLoop stop topics (i + 1) rest
    else
      mkNotification i d :: notifLoop stop topics (i + 1) rest

/-- Shallow embedding of `MongoDBApplicationRecorder.select_notifications`:
`self.collection.find().skip(start - 1).limit(limit)` then the enumerate loop.
`pymongo` raises `ValueError` for a negative skip, which happens whenever
`start < 1`. -/
def select_notifications (coll : List StoredEvent) (start : Int) (limit : Nat)
    (stop : Option Int) (topics : List String) :
    Except PyError (List Notification) :=
  if start - 1 < 0 then Except.error PyError.valueError
  else Except.ok
    (notifLoop stop topics start.toNat (mongoLimit limit (coll.drop (start - 1).toNat)))

/-- A document of the `tracking` collection used by `MongoDBProcessRecorder`;
`max_tracking_id` reads its `notification_id` field (with default 0). -/
structure TrackingDoc where
  application_name : String
  notification_id : Int
deriving DecidableEq, Repr

/-- `collection.find_one()`: the first document of the collection, or `None`
when the collection is empty. -/
def find_one (coll : List TrackingDoc) : Option TrackingDoc :=
  coll.head?

/-- Attribute lookup `x.sort(...)` on the value returned by `find_one()`: that
value is a plain document (`dict`) or `None`, and neither type has a `sort`
attribute, so CPython raises `AttributeError` in both cases.  (`sort` exists
on cursors, i.e. on the result of `find()`, not of `find_one()`.) -/
def documentSortAttr (x : Option TrackingDoc) : Except PyError (List TrackingDoc) :=
  match x with
  | none => Except.error PyError.attributeError
  | some _ => Except.error PyError.attributeError

/-- Shallow embedding of `MongoDBProcessRecorder.max_tracking_id`: the code is
`self.collection.find_one().sort([("notification_id", DESCENDING)]).limit(1)`
followed by `return max_id_record.get("notification_id", 0)` / `return 0`;
everything after the attribute lookup is unreachable. -/
def max_tracking_id (coll : List TrackingDoc) (application_name : String) :
    Except PyError Int :=
  match documentSortAttr (find_one coll) with
  | Except.error e => Except.error e
  | Except.ok sorted =>
    Except.ok
      (match sorted.head? with
        | some max_id_record => max_id_record.notification_id
        | none => 0)

/-- Run a sequence of `insert_events` batches against the events collection,
collecting each batch's returned notification ids. -/
def runHistory (coll : List StoredEvent) :
    List (List StoredEvent) → List StoredEvent × List (List Nat)
  | [] => (coll, [])
  | b :: bs =>
    let r := insert_events coll b
    let rest := runHistory r.collection bs
    (rest.1, r.ids :: rest.2)

/-- Maximum of a list of notification ids, 0 when none was assigned. -/
def listMax (l : List Nat) : Nat :=
  l.foldr max 0

/-- The id lists a conflict-free history is expected to return: each batch
gets the contiguous ascending range that starts right after the number of
documents stored before it. -/
def idRanges (stored : Nat) : List (List StoredEvent) → List (List Nat)
  | [] => []
  | b :: bs => List.range' (stored + 1) b.length :: idRanges (stored + b.length) bs

/-- No event of the batch collides with a document already stored. -/
def keyFree (coll : List StoredEvent) (batch : List StoredEvent) : Bool :=
  batch.all (fun e => !hasKey coll e)

/-- The events of a batch carry pairwise distinct keys. -/
def distinctKeys : List StoredEvent → Bool
  | [] => true
  | e :: rest => !rest.any (sameKey e) && distinctKeys rest

/-- A batch whose append succeeds without touching the `DuplicateKeyError`
handler: fresh keys, pairwise distinct. -/
def conflictFree (coll : List StoredEvent) (batch : List StoredEvent) : Bool :=
  keyFree coll batch && distinctKeys batch

/-- Every append of the history is successful (conflict-free at its turn). -/
def allSucceed (coll : List StoredEvent) : List (List StoredEvent) → Bool
  | [] => true
  | b :: bs => conflictFree coll b && allSucceed (insert_events coll b).collection bs

/-- Sample events: stream 1 at versions 0, 1, 2 and stream 2 at version 0. -/
def a0 : StoredEvent := ⟨1, 0, "Created", "s0"⟩

def a1 : StoredEvent := ⟨1, 1, "Updated", "s1"⟩

def a2 : StoredEvent := ⟨1, 2, "Updated", "s2"⟩

def b0 : StoredEvent := ⟨2, 0, "Created", "t0"⟩


theorem insertLoop_nil (coll : List StoredEvent) :
    insertLoop coll [] = ⟨coll, [], []⟩ := by
  rw [insertLoop]

theorem insertLoop_cons_conflict {coll : List StoredEvent} {e : StoredEvent}
    (rest : List StoredEvent) (h : hasKey coll e = true) :
    insertLoop coll (e :: rest) =
      ⟨(insertLoop coll (rest ++ [bumpVersion e])).collection,
        e :: (insertLoop coll (rest ++ [bumpVersion e])).events,
        coll.length :: (insertLoop coll (rest ++ [bumpVersion e])).ids⟩ := by
  rw [insertLoop]
  simp [h]

theorem insertLoop_cons_ok {coll : List StoredEvent} {e : StoredEvent}
    (rest : List StoredEvent) (h : hasKey coll e = false) :
    insertLoop coll (e :: rest) =
      ⟨(insertLoop (coll ++ [e]) rest).collection,
        e :: (insertLoop (coll ++ [e]) rest).events,
        (coll.length + 1) :: (insertLoop (coll ++ [e]) rest).ids⟩ := by
  rw [insertLoop]
  simp [h]

theorem hasKey_append_singleton (coll : List StoredEvent) (x e : StoredEvent) :
    hasKey (coll ++ [x]) e = (hasKey coll e || sameKey e x) := by
  simp [hasKey, List.any_append]

theorem sameKey_comm (a b : StoredEvent) : sameKey a b = sameKey b a := by
  apply Bool.eq_iff_iff.mpr
  simp only [sameKey, Bool.and_eq_true, beq_iff_eq]
  constructor
  · rintro ⟨h1, h2⟩; exact ⟨h1.symm, h2.symm⟩
  · rintro ⟨h1, h2⟩; exact ⟨h1.symm, h2.symm⟩

/-- The final value of the caller's `stored_events` list extends the list it
passed in: the loop only ever appends. -/
theorem insertLoop_events_extends (coll pending : List StoredEvent) :
    ∃ extra, (insertLoop coll pending).events = pending ++ extra := by
  induction coll, pending using insertLoop.induct with
  | case1 coll => exact ⟨[], by simp [insertLoop_nil]⟩
  | case2 coll e rest h ih =>
    rcases ih with ⟨extra, hex⟩
    refine ⟨[bumpVersion e] ++ extra, ?_⟩
    rw [insertLoop_cons_conflict rest h]
    simp only [hex]
    simp
  | case3 coll e rest h ih =>
    rcases ih with ⟨extra, hex⟩
    refine ⟨extra, ?_⟩
    rw [insertLoop_cons_ok rest (Bool.not_eq_true _ ▸ h)]
    simp [hex]

/-- Every event that is pending with a conflicting key gets a renumbered copy
(version + 1) appended to the caller's list. -/
theorem insertLoop_bump_mem (coll pending : List StoredEvent) (e : StoredEvent)
    (hmem : e ∈ pending) (hdup : hasKey coll e = true) :
    bumpVersion e ∈ (insertLoop coll pending).events := by
  induction coll, pending using insertLoop.induct with
  | case1 coll => cases hmem
  | case2 coll d rest h ih =>
    rw [insertLoop_cons_conflict rest h]
    rcases List.mem_cons.mp hmem with he | he
    · subst he
      rcases insertLoop_events_extends coll (rest ++ [bumpVersion e]) with ⟨extra, hex⟩
      refine List.mem_cons_of_mem _ ?_
      rw [hex]
      simp
    · exact List.mem_cons_of_mem _ (ih (by simp [he]) hdup)
  | case3 coll d rest h ih =>
    rw [insertLoop_cons_ok rest (Bool.not_eq_true _ ▸ h)]
    rcases List.mem_cons.mp hmem with he | he
    · subst he; exact absurd hdup h
    · refine List.mem_cons_of_mem _ (ih he ?_)
      rw [hasKey_append_singleton, hdup]
      simp

/-- If any pending event carries a key already stored, the caller's list ends
up strictly longer than what it passed in. -/
theorem insertLoop_events_longer (coll pending : List StoredEvent)
    (hc : ∃ e ∈ pending, hasKey coll e = true) :
    pending.length < (insertLoop coll pending).events.length := by
  induction coll, pending using insertLoop.induct with
  | case1 coll => rcases hc with ⟨e, he, _⟩; cases he
  | case2 coll d rest h ih =>
    rw [insertLoop_cons_conflict rest h]
    rcases insertLoop_events_extends coll (rest ++ [bumpVersion d]) with ⟨extra, hex⟩
    simp only [List.length_cons, hex, List.length_append, List.length_nil]
    omega
  | case3 coll d rest h ih =>
    rw [insertLoop_cons_ok rest (Bool.not_eq_true _ ▸ h)]
    dsimp only
    simp only [List.length_cons]
    have hc' : ∃ e ∈ rest, hasKey (coll ++ [d]) e = true := by
      rcases hc with ⟨e, he, hk⟩
      rcases List.mem_cons.mp he with he' | he'
      · subst he'; exact absurd hk h
      · refine ⟨e, he', ?_⟩
        rw [hasKey_append_singleton, hk]
        simp
    have := ih hc'
    omega

/-- The collection only grows across an `insert_events` call. -/
theorem insertLoop_collection_length_mono (coll pending : List StoredEvent) :
    coll.length ≤ (insertLoop coll pending).collection.length := by
  induction coll, pending using insertLoop.induct with
  | case1 coll => simp [insertLoop_nil]
  | case2 coll e rest h ih =>
    rw [insertLoop_cons_conflict rest h]
    exact ih
  | case3 coll e rest h ih =>
    rw [insertLoop_cons_ok rest (Bool.not_eq_true _ ▸ h)]
    dsimp only
    simp only [List.length_append, List.length_cons, List.length_nil] at ih
    omega

theorem listMax_cons (a : Nat) (l : List Nat) :
    listMax (a :: l) = max a (listMax l) := rfl

theorem listMax_append (l1 l2 : List Nat) :
    listMax (l1 ++ l2) = max (listMax l1) (listMax l2) := by
  induction l1 with
  | nil => simp [listMax]
  | cons a t ih => simp [listMax_cons, List.cons_append, ih, Nat.max_assoc]

/-- The count after the call equals the larger of the count before the call
and the largest notification id handed out during it: every recorded id is a
snapshot of `count()`, the count never shrinks, and the last pending event is
always inserted (its bump chain ends in an insert). -/
theorem insertLoop_collection_length_eq_max (coll pending : List StoredEvent) :
    (insertLoop coll pending).collection.length =
      max coll.length (listMax (insertLoop coll pending).ids) := by
  induction coll, pending using insertLoop.induct with
  | case1 coll => simp [insertLoop_nil, listMax]
  | case2 coll e rest h ih =>
    rw [insertLoop_cons_conflict rest h]
    simp only [listMax_cons]
    omega
  | case3 coll e rest h ih =>
    rw [insertLoop_cons_ok rest (Bool.not_eq_true _ ▸ h)]
    dsimp only
    simp only [listMax_cons]
    simp only [List.length_append, List.length_cons, List.length_nil] at ih
    omega

theorem keyFree_iff {coll batch : List StoredEvent} :
    keyFree coll batch = true ↔ ∀ e ∈ batch, hasKey coll e = false := by
  simp [keyFree]

/-- A conflict-free batch is appended verbatim: the collection grows by
exactly the batch, the caller's list is untouched, and the returned ids are
the contiguous ascending range that starts right after the old count. -/
theorem insertLoop_conflictFree (batch : List StoredEvent) :
    ∀ coll : List StoredEvent, conflictFree coll batch = true →
    insertLoop coll batch =
      ⟨coll ++ batch, batch, List.range' (coll.length + 1) batch.length⟩ := by
  induction batch with
  | nil => intro coll _; simp [insertLoop_nil]
  | cons e rest ih =>
    intro coll hcf
    have hkf : ∀ x ∈ e :: rest, hasKey coll x = false :=
      keyFree_iff.mp ((Bool.and_eq_true _ _).mp hcf).1
    have hdk : distinctKeys (e :: rest) = true := ((Bool.and_eq_true _ _).mp hcf).2
    have hde : rest.any (sameKey e) = false := by
      rcases (Bool.and_eq_true _ _).mp hdk with ⟨h1, _⟩
      simpa using h1
    have hcf' : conflictFree (coll ++ [e]) rest = true := by
      apply (Bool.and_eq_true _ _).mpr
      constructor
      · apply keyFree_iff.mpr
        intro x hx
        rw [hasKey_append_singleton, hkf x (List.mem_cons_of_mem _ hx),
          sameKey_comm]
        have := List.any_eq_false.mp hde
        simpa using this x hx
      · exact ((Bool.and_eq_true _ _).mp hdk).2
    rw [insertLoop_cons_ok rest (hkf e (List.mem_cons_self _ _)), ih _ hcf']
    have hlen : (coll ++ [e]).length = coll.length + 1 := by simp
    simp only [InsertResult.mk.injEq]
    refine ⟨by simp, trivial, ?_⟩
    rw [hlen, List.length_cons, List.range'_succ]

theorem idRanges_nil (stored : Nat) : idRanges stored [] = [] := rfl

theorem idRanges_cons (stored : Nat) (b : List StoredEvent)
    (bs : List (List StoredEvent)) :
    idRanges stored (b :: bs) =
      List.range' (stored + 1) b.length :: idRanges (stored + b.length) bs := rfl

/-- The ids of a fully successful history are exactly the expected contiguous
ranges. -/
theorem runHistory_allSucceed_ids (batches : List (List StoredEvent)) :
    ∀ coll : List StoredEvent, allSucceed coll batches = true →
    (runHistory coll batches).2 = idRanges coll.length batches := by
  induction batches with
  | nil => intro coll _; rfl
  | cons b bs ih =>
    intro coll hs
    rcases (Bool.and_eq_true _ _).mp hs with ⟨hcf, hrest⟩
    have hb := insertLoop_conflictFree b coll hcf
    have hcoll : (insert_events coll b).collection = coll ++ b := by
      rw [insert_events, hb]
    have hids : (insert_events coll b).ids =
        List.range' (coll.length + 1) b.length := by
      rw [insert_events, hb]
    rw [runHistory]
    dsimp only
    rw [hids, idRanges_cons]
    rw [hcoll] at hrest ⊢
    rw [ih _ hrest]
    simp

/-- Flattening the expected ranges yields one contiguous ascending range of
fresh ids. -/
theorem idRanges_join (batches : List (List StoredEvent)) :
    ∀ stored : Nat, (idRanges stored batches).flatten =
      List.range' (stored + 1) ((batches.map List.length).sum) := by
  induction batches with
  | nil => intro stored; simp [idRanges_nil]
  | cons b bs ih =>
    intro stored
    rw [idRanges_cons]
    rw [List.flatten_cons, ih (stored + b.length)]
    have := List.range'_append (stored + 1) b.length ((bs.map List.length).sum) 1
    simp only [one_mul] at this
    rw [show stored + b.length + 1 = stored + 1 + b.length by omega, this]
    simp [Nat.add_comm]

/-- Ids of a successful history never repeat. -/
theorem runHistory_allSucceed_nodup (batches : List (List StoredEvent))
    (coll : List StoredEvent) (hs : allSucceed coll batches = true) :
    ((runHistory coll batches).2.flatten).Nodup := by
  rw [runHistory_allSucceed_ids batches coll hs, idRanges_join]
  exact List.nodup_range' _ _

/-- The stored count after any history equals the larger of the initial count
and the highest id assigned during the history. -/
theorem runHistory_length_eq_max (batches : List (List StoredEvent)) :
    ∀ coll : List StoredEvent,
    (runHistory coll batches).1.length =
      max coll.length (listMax ((runHistory coll batches).2.flatten)) := by
  induction batches with
  | nil => intro coll; simp [runHistory, listMax]
  | cons b bs ih =>
    intro coll
    rw [runHistory]
    dsimp only
    rw [List.flatten_cons, listMax_append]
    have h1 := insertLoop_collection_length_eq_max coll b
    have h2 := ih (insert_events coll b).collection
    rw [insert_events] at h2 ⊢
    omega

theorem mem_insertSorted {le : StoredEvent → StoredEvent → Bool}
    {e a : StoredEvent} : ∀ {l : List StoredEvent},
    a ∈ insertSorted le e l ↔ a = e ∨ a ∈ l := by
  intro l
  induction l with
  | nil => simp [insertSorted]
  | cons x xs ih =>
    by_cases h : le e x = true
    · simp [insertSorted, h]
    · simp only [insertSorted, h]
      simp only [Bool.false_eq_true, if_false, List.mem_cons, ih]
      tauto

theorem mem_sortEvents {le : StoredEvent → StoredEvent → Bool}
    {a : StoredEvent} : ∀ {l : List StoredEvent},
    a ∈ sortEvents le l ↔ a ∈ l := by
  intro l
  induction l with
  | nil => simp [sortEvents]
  | cons x xs ih => simp [sortEvents, mem_insertSorted, ih]

theorem pairwise_insertSorted {le : StoredEvent → StoredEvent → Bool}
    (htrans : ∀ a b c, le a b = true → le b c = true → le a c = true)
    (htotal : ∀ a b, le a b = true ∨ le b a = true)
    (e : StoredEvent) : ∀ (l : List StoredEvent),
    l.Pairwise (fun a b => le a b = true) →
    (insertSorted le e l).Pairwise (fun a b => le a b = true) := by
  intro l
  induction l with
  | nil => intro _; simp [insertSorted]
  | cons x xs ih =>
    intro hp
    rcases List.pairwise_cons.mp hp with ⟨hx, hxs⟩
    by_cases h : le e x = true
    · simp only [insertSorted, h, if_true]
      refine List.pairwise_cons.mpr ⟨?_, hp⟩
      intro b hb
      rcases List.mem_cons.mp hb with hb' | hb'
      · subst hb'; exact h
      · exact htrans _ _ _ h (hx b hb')
    · simp only [insertSorted, h]
      simp only [Bool.false_eq_true, if_false]
      refine List.pairwise_cons.mpr ⟨?_, ih hxs⟩
      intro b hb
      rcases mem_insertSorted.mp hb with hb' | hb'
      · rw [hb']
        rcases htotal e x with h' | h'
        · exact absurd h' h
        · exact h'
      · exact hx b hb'

theorem pairwise_sortEvents {le : StoredEvent → StoredEvent → Bool}
    (htrans : ∀ a b c, le a b = true → le b c = true → le a c = true)
    (htotal : ∀ a b, le a b = true ∨ le b a = true) :
    ∀ (l : List StoredEvent),
    (sortEvents le l).Pairwise (fun a b => le a b = true) := by
  intro l
  induction l with
  | nil => simp [sortEvents]
  | cons x xs ih => exact pairwise_insertSorted htrans htotal x _ ih

theorem versionLe_trans : ∀ a b c, versionLe a b = true → versionLe b c = true →
    versionLe a c = true := by
  intro a b c h1 h2
  simp only [versionLe, decide_eq_true_eq] at h1 h2 ⊢
  omega

theorem versionLe_total : ∀ a b, versionLe a b = true ∨ versionLe b a = true := by
  intro a b
  simp only [versionLe, decide_eq_true_eq]
  omega

theorem versionGe_trans : ∀ a b c, versionGe a b = true → versionGe b c = true →
    versionGe a c = true := by
  intro a b c h1 h2
  simp only [versionGe, decide_eq_true_eq] at h1 h2 ⊢
  omega

theorem versionGe_total : ∀ a b, versionGe a b = true ∨ versionGe b a = true := by
  intro a b
  simp only [versionGe, decide_eq_true_eq]
  omega

/-- Members of a `select_events` result come from the filtered collection. -/
theorem select_events_mem {coll : List StoredEvent} {originator_id : Nat}
    {gt lte : Option Int} {desc : Bool} {limit : Option Nat} {e : StoredEvent}
    (he : e ∈ select_events coll originator_id gt lte desc limit) :
    e ∈ coll ∧ e.originator_id = originator_id ∧
      matchesVersion (apply_params gt lte) e = true := by
  have he' : e ∈ coll.filter
      (fun x => x.originator_id == originator_id &&
        matchesVersion (apply_params gt lte) x) := by
    simp only [select_events] at he
    rcases hb : truthyNat limit with _ | _
    · rw [hb] at he
      simp only [Bool.false_eq_true, if_false] at he
      rcases desc with _ | _ <;> simpa using mem_sortEvents.mp he
    · rw [hb] at he
      simp only [if_true] at he
      have := (List.take_sublist _ _).mem he
      rcases desc with _ | _ <;> simpa using mem_sortEvents.mp this
  rcases List.mem_filter.mp he' with ⟨h1, h2⟩
  refine ⟨h1, ?_, ?_⟩
  · have := ((Bool.and_eq_true _ _).mp h2).1
    simpa using this
  · exact ((Bool.and_eq_true _ _).mp h2).2

theorem notifLoop_id_ge {stop : Option Int} {topics : List String} :
    ∀ (xs : List StoredEvent) (i : Nat) (n : Notification),
    n ∈ notifLoop stop topics i xs → i ≤ n.id := by
  intro xs
  induction xs with
  | nil => intro i n hn; cases hn
  | cons d rest ih =>
    intro i n hn
    simp only [notifLoop] at hn
    by_cases hs : stopHit stop i = true
    · rw [hs] at hn; simp at hn
    · rw [Bool.not_eq_true] at hs
      rw [hs] at hn
      simp only [Bool.false_eq_true, if_false] at hn
      by_cases ht : (!topics.isEmpty && !topics.contains d.topic) = true
      · rw [ht] at hn
        simp only [if_true] at hn
        have := ih (i + 1) n hn
        omega
      · rw [Bool.not_eq_true] at ht
        rw [ht] at hn
        simp only [Bool.false_eq_true, if_false, List.mem_cons] at hn
        rcases hn with hn | hn
        · rw [hn]; rfl
        · have := ih (i + 1) n hn
          omega

theorem notifLoop_pairwise {stop : Option Int} {topics : List String} :
    ∀ (xs : List StoredEvent) (i : Nat),
    (notifLoop stop topics i xs).Pairwise (fun a b => a.id < b.id) := by
  intro xs
  induction xs with
  | nil => intro i; simp [notifLoop]
  | cons d rest ih =>
    intro i
    simp only [notifLoop]
    by_cases hs : stopHit stop i = true
    · rw [hs]; simp
    · rw [Bool.not_eq_true] at hs
      rw [hs]
      simp only [Bool.false_eq_true, if_false]
      by_cases ht : (!topics.isEmpty && !topics.contains d.topic) = true
      · rw [ht]
        simp only [if_true]
        exact ih (i + 1)
      · rw [Bool.not_eq_true] at ht
        rw [ht]
        simp only [Bool.false_eq_true, if_false]
        refine List.pairwise_cons.mpr ⟨?_, ih (i + 1)⟩
        intro n hn
        have := notifLoop_id_ge rest (i + 1) n hn
        simp only [mkNotification]
        omega

theorem notifLoop_length {stop : Option Int} {topics : List String} :
    ∀ (xs : List StoredEvent) (i : Nat),
    (notifLoop stop topics i xs).length ≤ xs.length := by
  intro xs
  induction xs with
  | nil => intro i; simp [notifLoop]
  | cons d rest ih =>
    intro i
    simp only [notifLoop]
    by_cases hs : stopHit stop i = true
    · rw [hs]; simp
    · rw [Bool.not_eq_true] at hs
      rw [hs]
      simp only [Bool.false_eq_true, if_false]
      by_cases ht : (!topics.isEmpty && !topics.contains d.topic) = true
      · rw [ht]
        simp only [if_true, List.length_cons]
        have := ih (i + 1)
        omega
      · rw [Bool.not_eq_true] at ht
        rw [ht]
        simp only [Bool.false_eq_true, if_false, List.length_cons]
        have := ih (i + 1)
        omega

theorem notifLoop_stop_le {topics : List String} {s : Int} :
    ∀ (xs : List StoredEvent) (i : Nat) (n : Notification),
    n ∈ notifLoop (some s) topics i xs → (n.id : Int) ≤ s := by
  intro xs
  induction xs with
  | nil => intro i n hn; cases hn
  | cons d rest ih =>
    intro i n hn
    simp only [notifLoop] at hn
    by_cases hs : stopHit (some s) i = true
    · rw [hs] at hn; simp at hn
    · rw [Bool.not_eq_true] at hs
      rw [hs] at hn
      simp only [Bool.false_eq_true, if_false] at hn
      have hile : (i : Int) ≤ s - 1 := by
        simp only [stopHit, decide_eq_false_iff_not, not_lt] at hs
        omega
      by_cases ht : (!topics.isEmpty && !topics.contains d.topic) = true
      · rw [ht] at hn
        simp only [if_true] at hn
        exact ih (i + 1) n hn
      · rw [Bool.not_eq_true] at ht
        rw [ht] at hn
        simp only [Bool.false_eq_true, if_false, List.mem_cons] at hn
        rcases hn with hn | hn
        · rw [hn]; simp only [mkNotification]; omega
        · exact ih (i + 1) n hn

theorem notifLoop_topics {stop : Option Int} {topics : List String}
    (htop : topics ≠ []) :
    ∀ (xs : List StoredEvent) (i : Nat) (n : Notification),
    n ∈ notifLoop stop topics i xs → n.topic ∈ topics := by
  intro xs
  induction xs with
  | nil => intro i n hn; cases hn
  | cons d rest ih =>
    intro i n hn
    simp only [notifLoop] at hn
    by_cases hs : stopHit stop i = true
    · rw [hs] at hn; simp at hn
    · rw [Bool.not_eq_true] at hs
      rw [hs] at hn
      simp only [Bool.false_eq_true, if_false] at hn
      by_cases ht : (!topics.isEmpty && !topics.contains d.topic) = true
      · rw [ht] at hn
        simp only [if_true] at hn
        exact ih (i + 1) n hn
      · rw [Bool.not_eq_true] at ht
        rw [ht] at hn
        simp only [Bool.false_eq_true, if_false, List.mem_cons] at hn
        rcases hn with hn | hn
        · have hne : topics.isEmpty = false := by
            simp [List.isEmpty_iff, htop]
          rw [hne] at ht
          simp only [Bool.not_false, Bool.true_and, Bool.not_eq_false] at ht
          rw [hn]
          simpa [mkNotification] using ht
        · exact ih (i + 1) n hn

/-- With no `stop`, filtering by topics commutes out of the enumerate loop:
the loop skips filtered documents only after the window is fixed, and the
counter advances regardless, so the kept notifications carry the same ids. -/
theorem notifLoop_filter {topics : List String} (htop : topics ≠ []) :
    ∀ (xs : List StoredEvent) (i : Nat),
    notifLoop none topics i xs =
      (notifLoop none [] i xs).filter (fun n => topics.contains n.topic) := by
  intro xs
  induction xs with
  | nil => intro i; rfl
  | cons d rest ih =>
    intro i
    have hne : topics.isEmpty = false := by
      simp [List.isEmpty_iff, htop]
    simp only [notifLoop, stopHit, Bool.false_eq_true, if_false,
      List.isEmpty_nil, Bool.not_true, Bool.false_and, hne, Bool.not_false,
      Bool.true_and]
    by_cases hc : topics.contains d.topic = true
    · rw [hc]
      simp only [Bool.not_true, Bool.false_eq_true, if_false, List.filter_cons]
      rw [ih (i + 1)]
      have hmem : d.topic ∈ topics := by simpa using hc
      simp only [mkNotification]
      simp [hmem]
    · rw [Bool.not_eq_true] at hc
      rw [hc]
      simp only [Bool.not_false, if_true, List.filter_cons]
      rw [ih (i + 1)]
      have hmem : ¬(d.topic ∈ topics) := by simpa using hc
      simp only [mkNotification]
      simp [hmem]

/-- C1: the claim says a batch containing an already-stored
`(originator_id, originator_version)` pair must fail with
`ConcurrencyConflict` and must not be renumbered.  The code does the
opposite: with `a0 = (stream 1, version 0)` already stored, inserting `[a0]`
raises nothing, silently renumbers the conflicting event to version 1, stores
that copy, and returns notification ids `[1, 2]`. -/
theorem insert_events_swallows_conflict_and_renumbers :
    insert_events [a0] [a0] =
      ⟨[a0, bumpVersion a0], [a0, bumpVersion a0], [1, 2]⟩ ∧
    bumpVersion a0 = ⟨1, 1, "Created", "s0"⟩ := by
  constructor
  · simp [insert_events, insertLoop, hasKey, sameKey, a0, bumpVersion]
  · rfl

/-- C2: the claim says a conflicting append commits nothing: the stream reads
the same before and after and `max_notification_id` is unchanged.  In the
code the conflicting batch `[a0]` against a store holding `a0` commits a
renumbered copy: reading stream 1 afterwards returns a different event list
and `max_notification_id` grows from 1 to 2 (and the append does not fail at
all). -/
theorem conflicting_append_mutates_state :
    select_events (insert_events [a0] [a0]).collection 1 none none false none ≠
      select_events [a0] 1 none none false none ∧
    max_notification_id (insert_events [a0] [a0]).collection = 2 ∧
    max_notification_id [a0] = 1 := by
  have h : insert_events [a0] [a0] =
      ⟨[a0, bumpVersion a0], [a0, bumpVersion a0], [1, 2]⟩ := by
    simp [insert_events, insertLoop, hasKey, sameKey, a0, bumpVersion]
  rw [h]
  exact ⟨by decide, by decide, by decide⟩

/-- C3: across a history of successful (conflict-free) appends, each batch's
notification ids are the contiguous ascending range starting right after the
number of previously stored events, and no id is ever assigned twice. -/
theorem successful_appends_assign_fresh_contiguous_ids
    (coll0 : List StoredEvent) (batches : List (List StoredEvent))
    (h : allSucceed coll0 batches = true) :
    (runHistory coll0 batches).2 = idRanges coll0.length batches ∧
    ((runHistory coll0 batches).2.flatten).Nodup :=
  ⟨runHistory_allSucceed_ids batches coll0 h,
   runHistory_allSucceed_nodup batches coll0 h⟩

theorem successful_appends_assign_fresh_contiguous_ids_witness :
    allSucceed [] [[a0, a1], [b0]] = true ∧
    (runHistory [] [[a0, a1], [b0]]).2 = [[1, 2], [3]] := by
  have h : allSucceed [] [[a0, a1], [b0]] = true := by
    simp [allSucceed, conflictFree, keyFree, distinctKeys, insert_events,
      insertLoop, hasKey, sameKey, a0, a1, b0, bumpVersion]
  refine ⟨h, ?_⟩
  have h2 := (successful_appends_assign_fresh_contiguous_ids [] [[a0, a1], [b0]] h).1
  rw [h2]
  decide

/-- C4: the claim says `gt` is an exclusive lower bound and that after
appending versions 0, 1, 2 to a stream, reading with `gt = 0` returns the two
events with versions 1 and 2.  Because the code tests Python truthiness
(`if gt:`), `gt = 0` adds no bound at all: all three events come back,
including version 0, which violates `gt < version`. -/
theorem select_events_gt_zero_bound_dropped :
    (select_events [a0, a1, a2] 1 (some 0) none false none).map
      (fun e => e.originator_version) = [0, 1, 2] ∧
    ¬(∀ e ∈ select_events [a0, a1, a2] 1 (some 0) none false none,
        (0 : Int) < e.originator_version) := by decide

/-- C6: the claim says `max_tracking_id` returns the highest recorded
notification id, or 0 when none is recorded.  The code calls `.sort(...)` on
the result of `find_one()`, which is a document or `None`; neither has a
`sort` attribute, so every call raises `AttributeError` regardless of the
collection's contents or the application name. -/
theorem max_tracking_id_always_attribute_error (coll : List TrackingDoc)
    (application_name : String) :
    max_tracking_id coll application_name =
      Except.error PyError.attributeError := by
  cases coll <;> rfl

/-- C7: after any history of appends against an initially empty store,
`max_notification_id` (the collection count) equals the highest notification
id assigned during the history, and in particular 0 when no id was assigned
(`listMax [] = 0`). -/
theorem max_notification_id_eq_highest_assigned_id
    (batches : List (List StoredEvent)) :
    max_notification_id (runHistory [] batches).1 =
      listMax ((runHistory [] batches).2.flatten) := by
  have h := runHistory_length_eq_max batches []
  simpa [max_notification_id] using h

/-- C9: `insert_events` mutates the caller's list: when the batch holds an
event whose key is already stored, a copy of it with `originator_version + 1`
is appended to the caller's `stored_events` list, which therefore ends up
strictly longer than the batch that was passed in. -/
theorem insert_events_mutates_caller_batch (coll batch : List StoredEvent)
    (e : StoredEvent) (hmem : e ∈ batch) (hdup : hasKey coll e = true) :
    (∃ extra, (insert_events coll batch).events = batch ++ extra) ∧
    bumpVersion e ∈ (insert_events coll batch).events ∧
    batch.length < (insert_events coll batch).events.length := by
  rw [insert_events]
  exact ⟨insertLoop_events_extends coll batch,
    insertLoop_bump_mem coll batch e hmem hdup,
    insertLoop_events_longer coll batch ⟨e, hmem, hdup⟩⟩

theorem insert_events_mutates_caller_batch_witness :
    a0 ∈ [a0] ∧ hasKey [a0] a0 = true ∧
    bumpVersion a0 ∈ (insert_events [a0] [a0]).events ∧
    List.length [a0] < (insert_events [a0] [a0]).events.length := by
  have h := insert_events_mutates_caller_batch [a0] [a0] a0 (by decide) (by decide)
  exact ⟨by decide, by decide, h.2.1, h.2.2⟩

/-- C8 (counterexample): the claim quantifies over every given limit, but
giving `limit = 0` performs no truncation — by Python truthiness (`if limit:`)
and equally by Mongo's `limit(0)` — so a one-event stream returns 1 > 0
events. -/
theorem select_events_limit_zero_not_truncated :
    (select_events [a0] 1 none none false (some 0)).length = 1 ∧
    ¬((select_events [a0] 1 none none false (some 0)).length ≤ 0) := by decide

/-- C8 (amended): `select_events` returns only events of the requested
stream, ascending by version unless `desc` is requested (then descending),
truncated to at most `limit` events when a positive limit is given
(`limit = 0`, like `limit = None`, means no truncation), and an unknown
stream yields the empty list rather than an error. -/
theorem select_events_read_contract (coll : List StoredEvent)
    (originator_id : Nat) (gt lte : Option Int) (desc : Bool)
    (limit : Option Nat) :
    (∀ e ∈ select_events coll originator_id gt lte desc limit,
        e.originator_id = originator_id) ∧
    (desc = false →
      (select_events coll originator_id gt lte desc limit).Pairwise
        (fun a b => a.originator_version ≤ b.originator_version)) ∧
    (desc = true →
      (select_events coll originator_id gt lte desc limit).Pairwise
        (fun a b => b.originator_version ≤ a.originator_version)) ∧
    (∀ n, limit = some n → 0 < n →
      (select_events coll originator_id gt lte desc limit).length ≤ n) ∧
    ((∀ e ∈ coll, e.originator_id ≠ originator_id) →
      select_events coll originator_id gt lte desc limit = []) := by
  refine ⟨?_, ?_, ?_, ?_, ?_⟩
  · intro e he
    exact (select_events_mem he).2.1
  · intro hdesc
    subst hdesc
    have hs : (sortEvents versionLe (coll.filter
        (fun e => e.originator_id == originator_id &&
          matchesVersion (apply_params gt lte) e))).Pairwise
        (fun a b => a.originator_version ≤ b.originator_version) := by
      refine (pairwise_sortEvents versionLe_trans versionLe_total _).imp ?_
      intro a b hab
      simpa [versionLe] using hab
    simp only [select_events, Bool.false_eq_true, if_false]
    by_cases hb : truthyNat limit = true
    · rw [hb]
      simp only [if_true]
      exact List.Pairwise.sublist (List.take_sublist _ _) hs
    · rw [Bool.not_eq_true] at hb
      rw [hb]
      simpa using hs
  · intro hdesc
    subst hdesc
    have hs : (sortEvents versionGe (coll.filter
        (fun e => e.originator_id == originator_id &&
          matchesVersion (apply_params gt lte) e))).Pairwise
        (fun a b => b.originator_version ≤ a.originator_version) := by
      refine (pairwise_sortEvents versionGe_trans versionGe_total _).imp ?_
      intro a b hab
      simpa [versionGe] using hab
    simp only [select_events, if_true]
    by_cases hb : truthyNat limit = true
    · rw [hb]
      simp only [if_true]
      exact List.Pairwise.sublist (List.take_sublist _ _) hs
    · rw [Bool.not_eq_true] at hb
      rw [hb]
      simpa using hs
  · intro n hlim hn
    subst hlim
    have hb : truthyNat (some n) = true := by
      simp only [truthyNat, ne_eq, bne_iff_ne]
      omega
    simp only [select_events, hb, if_true, Option.getD]
    cases desc <;> simp [List.length_take_le]
  · intro hnone
    have hf : coll.filter
        (fun e => e.originator_id == originator_id &&
          matchesVersion (apply_params gt lte) e) = [] := by
      apply List.filter_eq_nil_iff.mpr
      intro e he
      simp only [Bool.and_eq_true, beq_iff_eq, not_and]
      intro h1 _
      exact hnone e he h1
    simp only [select_events, hf]
    cases desc <;> by_cases hb : truthyNat limit = true <;>
      simp [hb, sortEvents]

theorem select_events_read_contract_witness :
    ((some 2 : Option Nat) = some 2 → 0 < 2 →
      (select_events [a0, a1, a2] 1 none none false (some 2)).length ≤ 2) ∧
    (select_events [a0, a1, a2] 1 none none false (some 2)).length = 2 ∧
    select_events [a0, a1, a2] 7 none none false none = [] := by
  have h := select_events_read_contract [a0, a1, a2] 1 none none false (some 2)
  have h7 := select_events_read_contract [a0, a1, a2] 7 none none false none
  exact ⟨fun _ _ => h.2.2.2.1 2 rfl (by decide), by decide,
    h7.2.2.2.2 (by decide)⟩

/-- C5 (counterexample): the claim quantifies over every `start` and `limit`,
but `limit = 0` means "no limit" for a Mongo cursor, so a one-document
collection returns 1 > 0 notifications; and `start = 0` makes the code call
`.skip(-1)`, which raises `ValueError` instead of returning notifications. -/
theorem select_notifications_limit_zero_not_limited :
    (select_notifications [a0] 1 0 none []).map List.length = Except.ok 1 ∧
    ¬((1 : Nat) ≤ 0) ∧
    select_notifications [a0] 0 5 none [] = Except.error PyError.valueError :=
  ⟨rfl, by decide, rfl⟩

/-- C5 (amended): for every `start ≥ 1` and every positive `limit`,
`select_notifications` returns at most `limit` notifications, in strictly
ascending id order, all with id at least `start`, with id at most `stop` when
`stop` is given, and with topic among `topics` when `topics` is non-empty
(`limit = 0` means no limit, and `start < 1` raises `ValueError`). -/
theorem select_notifications_bounds (coll : List StoredEvent) (start : Int)
    (limit : Nat) (stop : Option Int) (topics : List String)
    (hstart : 1 ≤ start) (hlimit : 0 < limit) :
    ∃ ns, select_notifications coll start limit stop topics = Except.ok ns ∧
      ns.length ≤ limit ∧
      ns.Pairwise (fun a b => a.id < b.id) ∧
      (∀ n ∈ ns, start ≤ (n.id : Int)) ∧
      (∀ s, stop = some s → ∀ n ∈ ns, (n.id : Int) ≤ s) ∧
      (topics ≠ [] → ∀ n ∈ ns, n.topic ∈ topics) := by
  have hcond : ¬(start - 1 < 0) := by omega
  have heq : select_notifications coll start limit stop topics =
      Except.ok (notifLoop stop topics start.toNat
        (mongoLimit limit (coll.drop (start - 1).toNat))) := by
    rw [select_notifications, if_neg hcond]
  refine ⟨_, heq, ?_, notifLoop_pairwise _ _, ?_, ?_, ?_⟩
  · have h1 := @notifLoop_length stop topics
      (mongoLimit limit (coll.drop (start - 1).toNat)) start.toNat
    have h2 : (mongoLimit limit (coll.drop (start - 1).toNat)).length ≤
        limit := by
      rw [mongoLimit]
      have hz : (limit == 0) = false := by
        simp only [beq_eq_false_iff_ne, ne_eq]
        omega
      rw [hz]
      simp only [Bool.false_eq_true, if_false]
      exact List.length_take_le _ _
    have h3 : limit ≤ limit := le_refl _
    calc (notifLoop stop topics start.toNat
          (mongoLimit limit (coll.drop (start - 1).toNat))).length
        ≤ (mongoLimit limit (coll.drop (start - 1).toNat)).length := h1
      _ ≤ limit := h2
  · intro n hn
    have := notifLoop_id_ge _ start.toNat n hn
    omega
  · intro s hs n hn
    subst hs
    exact notifLoop_stop_le _ start.toNat n hn
  · intro htop n hn
    exact notifLoop_topics htop _ start.toNat n hn

theorem select_notifications_bounds_witness :
    ∃ ns, select_notifications [a0, b0] 1 5 (some 1) ["Created"] =
        Except.ok ns ∧ ns.length ≤ 5 := by
  rcases select_notifications_bounds [a0, b0] 1 5 (some 1) ["Created"]
    (by decide) (by decide) with ⟨ns, h1, h2, _⟩
  exact ⟨ns, h1, h2⟩

/-- C10: with no `stop`, filtering by a non-empty topic set equals filtering
the unfiltered result of the same window: the `limit`-sized window starting
at `start` is taken first (`skip`/`limit` on the cursor), and the topic test
only skips documents inside that window, so matching documents beyond it are
never returned. -/
theorem topic_filter_applied_after_window (coll : List StoredEvent)
    (start : Int) (limit : Nat) (topics : List String)
    (hstart : 1 ≤ start) (htop : topics ≠ []) :
    select_notifications coll start limit none topics =
      (select_notifications coll start limit none []).map
        (fun ns => ns.filter (fun n => topics.contains n.topic)) := by
  have hcond : ¬(start - 1 < 0) := by omega
  rw [select_notifications, select_notifications, if_neg hcond, if_neg hcond]
  simp only [Except.map]
  rw [notifLoop_filter htop]

theorem topic_filter_applied_after_window_witness :
    select_notifications [a0, a1, b0] 1 2 none ["Created"] =
      (select_notifications [a0, a1, b0] 1 2 none []).map
        (fun ns => ns.filter (fun n => List.contains ["Created"] n.topic)) :=
  topic_filter_applied_after_window [a0, a1, b0] 1 2 ["Created"]
    (by decide) (by decide)
